import Mathlib

/-!
Verification of the erasure-coding availability core (erasure-coding/src/lib.rs).

The development shallowly embeds the Rust source.  Bytes are `Nat`s, byte
buffers are `List Nat`.  The external collaborators (the Reed-Solomon
primitive, the key-value Merkle trie, and the typed payload codec) are not
part of the repository; where a definition stands in for one of them it is
marked `Modelled from the spec:` and follows the contract stated in the
specification, or the external call is taken as an explicit function
parameter constrained by hypotheses that restate the spec's contract.
-/

set_option maxHeartbeats 1000000

deriving instance DecidableEq for Except

namespace EC

/-- Errors in erasure coding (the `Error` enum of the source). -/
inductive Error where
  | TooManyValidators
  | EmptyValidators
  | WrongValidatorCount
  | NotEnoughChunks
  | TooManyChunks
  | NonUniformChunks
  | ChunkIndexOutOfBounds (idx : Nat) (n : Nat)
  | BadPayload
deriving DecidableEq, Repr

/-- Modelled from the spec: the failure conditions the external Reed-Solomon
primitive can report from `reconstructShards` and that the orchestrator maps
into its own `Error` values.  The source's remaining variants
(`EmptyShard`, `IncorrectShardSize`, ...) are handled by panics declared
unreachable under the orchestrator's own validation and are not modelled. -/
inductive RSError where
  | TooFewShardsPresent
  | InvalidShardFlags
  | TooManyShards
deriving DecidableEq, Repr

/-- `CodeParams` of the source. -/
structure CodeParams where
  data_shards : Nat
  parity_shards : Nat
deriving DecidableEq, Repr

def MAX_VALIDATORS : Nat := 256

/-- `code_params` of the source. -/
def code_params (n_validators : Nat) : Except Error CodeParams :=
  if n_validators > MAX_VALIDATORS then .error .TooManyValidators
  else if n_validators = 0 then .error .EmptyValidators
  else
    let n_faulty := (n_validators - 1) / 3
    let n_good := n_validators - n_faulty
    .ok { data_shards := n_faulty + 1, parity_shards := n_good - 1 }

/-- `CodeParams::shard_len` of the source: the shard length needed for a
payload with initial size `base_len`. -/
def CodeParams.shard_len (p : CodeParams) (base_len : Nat) : Nat :=
  base_len / p.data_shards + base_len % p.data_shards

/-- Fuel-driven worker for `chunksOf`; the fuel only forces structural
termination and never runs out when it starts at the list length. -/
def chunksOfGo (fuel : Nat) (l : List Nat) (k : Nat) : List (List Nat) :=
  match fuel, l, k with
  | _, [], _ => []
  | _, _ :: _, 0 => []
  | 0, _ :: _, _ + 1 => []
  | f + 1, a :: rest, k0 + 1 =>
    (a :: rest).take (k0 + 1) :: chunksOfGo f ((a :: rest).drop (k0 + 1)) (k0 + 1)

/-- Rust's `slice::chunks(k)`: consecutive pieces of `l` of length `k`
(the last one possibly shorter).  The source never calls it with `k = 0`
(that would panic); the `k = 0` case here returns `[]`. -/
def chunksOf (l : List Nat) (k : Nat) : List (List Nat) :=
  chunksOfGo l.length l k

/-- The in-place copy `blank_shard[..len].copy_from_slice(&data_chunk[..len])`
with `len = min(data_chunk.len(), blank_shard.len())`. -/
def copyInto (data_chunk blank_shard : List Nat) : List Nat :=
  let len := min data_chunk.length blank_shard.length
  data_chunk.take len ++ blank_shard.drop len

/-- The `payload.chunks(shard_len).zip(&mut shards)` loop of
`make_shards_for`: shards in the zipped region receive the corresponding
payload piece, shards beyond it stay blank, extra pieces are dropped. -/
def zipFill : List (List Nat) → List (List Nat) → List (List Nat)
  | _, [] => []
  | [], shards => shards
  | c :: cs, s :: ss => copyInto c s :: zipFill cs ss

/-- `CodeParams::make_shards_for` of the source.  `make_blank_shards` of the
external library produces `data_shards + parity_shards` all-zero shards of
length `shard_len` (spec section 4.2). -/
def CodeParams.make_shards_for (p : CodeParams) (payload : List Nat) : List (List Nat) :=
  let sl := p.shard_len payload.length
  zipFill (chunksOf payload sl)
    (List.replicate (p.data_shards + p.parity_shards) (List.replicate sl 0))

/-- The `BlockData` payload half: a byte vector. -/
structure BlockData where
  bytes : List Nat
deriving DecidableEq, Repr

/-- The `Extrinsic` payload half: a fixed marker. -/
inductive Extrinsic where
  | mk
deriving DecidableEq, Repr

/-- Little-endian base-256 digits of `n`, least significant first, no
trailing zero digit. -/
def toLEBytes : Nat → List Nat
  | 0 => []
  | Nat.succ n => ((n + 1) % 256) :: toLEBytes ((n + 1) / 256)
decreasing_by
  exact Nat.div_lt_self (Nat.succ_pos n) (by omega)

/-- Value of a little-endian base-256 digit list. -/
def fromLEBytes (l : List Nat) : Nat :=
  l.foldr (fun b acc => b + 256 * acc) 0

/-- Modelled from the spec: the external typed payload codec's compact
length encoding (SCALE): two mode bits in the low bits of the first byte
select single-byte, two-byte, four-byte or big-integer mode. -/
def compactEncode (n : Nat) : List Nat :=
  if n < 64 then [n * 4]
  else if n < 16384 then [(n * 4 + 1) % 256, (n * 4 + 1) / 256]
  else if n < 1073741824 then
    [(n * 4 + 2) % 256, (n * 4 + 2) / 256 % 256,
     (n * 4 + 2) / 65536 % 256, (n * 4 + 2) / 16777216 % 256]
  else
    (((toLEBytes n).length - 4) * 4 + 3) :: toLEBytes n

/-- Modelled from the spec: compact length decoding, inverse of
`compactEncode`, returning the decoded value and the unconsumed bytes. -/
def decodeCompact : List Nat → Option (Nat × List Nat)
  | [] => none
  | b :: rest =>
    if b % 4 = 0 then some (b / 4, rest)
    else if b % 4 = 1 then
      match rest with
      | [] => none
      | b2 :: rest2 => some ((b + 256 * b2) / 4, rest2)
    else if b % 4 = 2 then
      match rest with
      | b2 :: b3 :: b4 :: rest4 =>
        some ((b + 256 * b2 + 65536 * b3 + 16777216 * b4) / 4, rest4)
      | _ => none
    else
      let nb := b / 4 + 4
      if rest.length < nb then none
      else some (fromLEBytes (rest.take nb), rest.drop nb)

/-- Modelled from the spec: the external typed payload codec's encoding of
the `(BlockData, Extrinsic)` pair — the block data's bytes behind a compact
length, the marker extrinsic contributing no bytes.  Deterministic and
self-delimiting, per the spec's collaborator contract. -/
def encodePair (bd : BlockData) (_ex : Extrinsic) : List Nat :=
  compactEncode bd.bytes.length ++ bd.bytes

/-- Modelled from the spec: the external typed payload codec's decoding of a
`(BlockData, Extrinsic)` pair from a byte stream; fails when the stream is
too short (a short read from the shard stream). -/
def decodePair (l : List Nat) : Option (BlockData × Extrinsic) :=
  match decodeCompact l with
  | none => none
  | some (len, rest) =>
    if rest.length < len then none
    else some ({ bytes := rest.take len }, Extrinsic.mk)

/-- `obtain_chunks` of the source, with the external erasure-coding
primitive's `encode_shards` (which fills the parity region in place and
cannot fail on the validated input) taken as the function parameter
`enc_shards`. -/
def obtain_chunks (enc_shards : List (List Nat) → List (List Nat))
    (n_validators : Nat) (block_data : BlockData) (extrinsic : Extrinsic) :
    Except Error (List (List Nat)) :=
  match code_params n_validators with
  | .error e => .error e
  | .ok params =>
    let encoded := encodePair block_data extrinsic
    if encoded = [] then .error .BadPayload
    else .ok (enc_shards (params.make_shards_for encoded))

/-- The validation loop of `reconstruct`: walks the consumed chunk items,
checking the index bound and the uniform nonzero length, and writes each
chunk into the sparse shard array (`shards[chunk_idx] = Some(...)`). -/
def fillLoop (n : Nat) :
    List (List Nat × Nat) → List (Option (List Nat)) → Option Nat →
    Except Error (List (Option (List Nat)))
  | [], shards, _ => .ok shards
  | (chunk_data, chunk_idx) :: rest, shards, shard_len =>
    if chunk_idx ≥ n then .error (.ChunkIndexOutOfBounds chunk_idx n)
    else
      let sl := shard_len.getD chunk_data.length
      if sl ≠ chunk_data.length ∨ sl = 0 then .error .NonUniformChunks
      else fillLoop n rest (shards.set chunk_idx (some chunk_data)) (some sl)

/-- The sparse shard array built by `reconstruct`'s validation loop from the
consumed items, starting from `n` empty slots and no observed length. -/
def fillShards (n : Nat) (chunks : List (List Nat × Nat)) :
    Except Error (List (Option (List Nat))) :=
  fillLoop n chunks (List.replicate n none) none

/-- One write of the validation loop: `shards[chunk_idx] = Some(chunk_data)`. -/
def setOp (acc : List (Option (List Nat))) (pr : List Nat × Nat) :
    List (Option (List Nat)) :=
  acc.set pr.2 (some pr.1)

/-- The byte stream that `ShardInput` exposes to the decoder once every
shard is present: the data-shard region, flattened in order. -/
def shardInputBytes (d : Nat) (full : List (List Nat)) : List Nat :=
  (full.take d).flatten

/-- The tail of `reconstruct` after the validation loop: the external
primitive's `reconstruct_shards` call (parameter `rec_shards`, returning the
fully recovered shard set or one of its reported conditions, mapped to the
public errors), then the typed decode drawing from the data-shard region
through `ShardInput`. -/
def reconstructPost (rec_shards : List (Option (List Nat)) → Except RSError (List (List Nat)))
    (d : Nat) (shards : List (Option (List Nat))) :
    Except Error (BlockData × Extrinsic) :=
  match rec_shards shards with
  | .error .TooFewShardsPresent => .error .NotEnoughChunks
  | .error .InvalidShardFlags => .error .WrongValidatorCount
  | .error .TooManyShards => .error .TooManyChunks
  | .ok full =>
    match decodePair (shardInputBytes d full) with
    | some res => .ok res
    | none => .error .BadPayload

/-- `reconstruct` of the source, with the external primitive's
`reconstruct_shards` taken as the function parameter `rec_shards`.  The
iterator's `take(n_validators)` bound on consumed items is `chunks.take
n_validators`. -/
def reconstruct (rec_shards : List (Option (List Nat)) → Except RSError (List (List Nat)))
    (n_validators : Nat) (chunks : List (List Nat × Nat)) :
    Except Error (BlockData × Extrinsic) :=
  match code_params n_validators with
  | .error e => .error e
  | .ok params =>
    match fillShards n_validators (chunks.take n_validators) with
    | .error e => .error e
    | .ok shards => reconstructPost rec_shards params.data_shards shards

/-- Number of populated slots of a sparse shard array. -/
def countSome (l : List (Option (List Nat))) : Nat :=
  l.countP (fun x => x.isSome)

/-- `ShardInput` of the source: the codec input drawing bytes from the
recovered data shards, with cursor `(shard_idx, in_shard)`. -/
structure ShardInput where
  shards : List (Option (List Nat))
  data_shards : Nat
  cursor : Nat × Nat
deriving DecidableEq, Repr

/-- The `while` loop of `ShardInput::read`.  `remaining` stands for
`into.len() - read_bytes` of the source and the returned list holds the
bytes copied into `into`, so the returned byte count is its length.  The
fuel argument only forces structural termination; `d + remaining` steps
always suffice.  The source's `expect` on a missing data shard (a panic,
unreachable after reconstruction) is modelled as stopping the loop. -/
def readLoop (shards : List (Option (List Nat))) (d : Nat) :
    Nat → Nat → Nat → Nat → List Nat → List Nat × Nat × Nat
  | 0, shard_idx, in_shard, _, acc => (acc, shard_idx, in_shard)
  | fuel + 1, shard_idx, in_shard, remaining, acc =>
    if shard_idx < d then
      if remaining = 0 then (acc, shard_idx, in_shard)
      else
        match shards.getD shard_idx none with
        | none => (acc, shard_idx, in_shard)
        | some active =>
          if active.length ≤ in_shard then
            readLoop shards d fuel (shard_idx + 1) 0 remaining acc
          else
            let wl := min remaining (active.length - in_shard)
            readLoop shards d fuel shard_idx (in_shard + wl) (remaining - wl)
              (acc ++ (active.drop in_shard).take wl)
    else (acc, shard_idx, in_shard)

/-- `ShardInput::read` of the source, asking for `k` bytes: returns the
copied bytes (their count is the source's return value) and the advanced
reader. -/
def ShardInput.read (s : ShardInput) (k : Nat) : List Nat × ShardInput :=
  let r := readLoop s.shards s.data_shards (s.data_shards + k)
    s.cursor.1 s.cursor.2 k []
  (r.1, { s with cursor := r.2 })

/-- The byte stream still ahead of a `ShardInput` cursor `(i0, off)`: the
rest of the current data shard, then the remaining data shards in order;
parity shards (indices `≥ d`) never contribute. -/
def availFrom (shards : List (Option (List Nat))) (d i0 off : Nat) : List Nat :=
  match (shards.take d).drop i0 with
  | [] => []
  | s0 :: rest => (s0.getD []).drop off ++ (rest.map (fun o => o.getD [])).flatten

/-- SCALE fixed-width encoding of `(i as u32)` — the trie key the source
uses for chunk position `i`, including the `u32` cast's wrap-around. -/
def encodeIndex (i : Nat) : List Nat :=
  [i % 4294967296 % 256, i % 4294967296 / 256 % 256,
   i % 4294967296 / 65536 % 256, i % 4294967296 / 16777216 % 256]

/-- The key-value insertion sequence the `branches` build loop performs:
position key, chunk hash, in chunk order. -/
def buildKV (hash : List Nat → List Nat) (chunks : List (List Nat)) :
    List (List Nat × List Nat) :=
  chunks.enum.map (fun pr => (encodeIndex pr.1, hash pr.2))

/-- Modelled from the spec: the external key-value Merkle trie's lookup over
the recorded insertion sequence — the latest insertion of a key wins. -/
def trieLookup (kv : List (List Nat × List Nat)) (key : List Nat) :
    Option (List Nat) :=
  match kv.reverse.find? (fun pr => pr.1 == key) with
  | some pr => some pr.2
  | none => none

/-- `Branches` of the source.  The external trie storage is modelled by the
insertion sequence `kv`; the root is whatever the external trie computes
from it (the `rootFn` parameter of `branches`). -/
structure Branches where
  kv : List (List Nat × List Nat)
  root : List Nat
  chunks : List (List Nat)
  current_pos : Nat
deriving DecidableEq, Repr

/-- `branches` of the source: builds the trie mapping each chunk's encoded
index to its hash, with the external trie's deterministic root function and
the external hash taken as parameters. -/
def branches (rootFn : List (List Nat × List Nat) → List Nat)
    (hash : List Nat → List Nat) (chunks : List (List Nat)) : Branches :=
  { kv := buildKV hash chunks
    root := rootFn (buildKV hash chunks)
    chunks := chunks
    current_pos := 0 }

/-- `Branches::next` of the source: a proof-recording lookup of the current
position's key (`proofFn` stands for the external recorder's node list),
paired with the chunk at that position; a lookup miss ends the iteration.
The source's `expect` on a missing chunk (a panic, unreachable while
positions fit in `u32`) is modelled as yielding nothing. -/
def Branches.next
    (proofFn : List (List Nat × List Nat) → List Nat → List (List Nat))
    (b : Branches) : Option ((List (List Nat) × List Nat) × Branches) :=
  match trieLookup b.kv (encodeIndex b.current_pos) with
  | some _ =>
    match b.chunks[b.current_pos]? with
    | some chunk =>
      some ((proofFn b.kv (encodeIndex b.current_pos), chunk),
        { b with current_pos := b.current_pos + 1 })
    | none => none
  | none => none

/-- The state reached after one `next` call (the iterator is unchanged when
it has signalled end-of-sequence). -/
def nextState (proofFn : List (List Nat × List Nat) → List Nat → List (List Nat))
    (b : Branches) : Branches :=
  match b.next proofFn with
  | some r => r.2
  | none => b

/-- The state reached after `k` successive `next` calls. -/
def stateAfter (proofFn : List (List Nat × List Nat) → List Nat → List (List Nat))
    (b : Branches) : Nat → Branches
  | 0 => b
  | k + 1 => nextState proofFn (stateAfter proofFn b k)

/-- A concrete stand-in for the external trie's root function, used in
witnesses: concatenates the stored values. -/
def trieRootFix (kv : List (List Nat × List Nat)) : List Nat :=
  (kv.map Prod.snd).flatten

/-- A concrete stand-in for the external recorder's collected node list,
used in witnesses. -/
def trieProofFix (_kv : List (List Nat × List Nat)) (key : List Nat) :
    List (List Nat) :=
  [key]

/-- Modelled from the spec: a concrete instance of the external primitive's
`reconstructShards` for one data shard and no parity shards — the single
present shard is the whole codeword; with no shard present it reports
`TooFewShardsPresent`.  Used to instantiate the contract hypotheses in
witnesses. -/
def recOne : List (Option (List Nat)) → Except RSError (List (List Nat)) :=
  fun sparse =>
    match sparse with
    | [some v] => .ok [v]
    | _ => .error .TooFewShardsPresent

/-- A reconstruct stand-in that always reports `TooFewShardsPresent`; used in
witnesses for claims whose outcome is decided before the primitive runs. -/
def recNever : List (Option (List Nat)) → Except RSError (List (List Nat)) :=
  fun _ => .error .TooFewShardsPresent

/-! ## Theorems -/

/-! ### The payload codec round-trip -/

theorem fromLEBytes_cons (a : Nat) (l : List Nat) :
    fromLEBytes (a :: l) = a + 256 * fromLEBytes l := by
  simp [fromLEBytes]

theorem fromLE_toLE (n : Nat) : fromLEBytes (toLEBytes n) = n := by
  induction n using Nat.strong_induction_on with
  | _ n ih =>
    match n with
    | 0 => simp [toLEBytes, fromLEBytes]
    | Nat.succ m =>
      rw [toLEBytes, fromLEBytes_cons,
        ih ((m + 1) / 256) (Nat.div_lt_self (Nat.succ_pos m) (by omega))]
      omega

theorem toLEBytes_lt (n : Nat) : n < 256 ^ (toLEBytes n).length := by
  induction n using Nat.strong_induction_on with
  | _ n ih =>
    match n with
    | 0 => simp [toLEBytes]
    | Nat.succ m =>
      rw [toLEBytes]
      simp only [List.length_cons]
      have h1 := ih ((m + 1) / 256) (Nat.div_lt_self (Nat.succ_pos m) (by omega))
      have h2 := Nat.div_add_mod (m + 1) 256
      have h3 : (m + 1) % 256 < 256 := Nat.mod_lt _ (by omega)
      rw [pow_succ]
      omega

theorem toLEBytes_len_ge (n : Nat) (h : 16777216 ≤ n) : 4 ≤ (toLEBytes n).length := by
  by_contra hc
  have h1 : (toLEBytes n).length ≤ 3 := by omega
  have h2 := toLEBytes_lt n
  have h3 : (256 : Nat) ^ (toLEBytes n).length ≤ 256 ^ 3 :=
    Nat.pow_le_pow_right (by omega) h1
  omega

theorem compactEncode_ne_nil (n : Nat) : compactEncode n ≠ [] := by
  unfold compactEncode
  split
  · simp
  · split
    · simp
    · split <;> simp

theorem decodeCompact_encode (n : Nat) (t : List Nat) :
    decodeCompact (compactEncode n ++ t) = some (n, t) := by
  by_cases h1 : n < 64
  · rw [compactEncode, if_pos h1]
    show decodeCompact (n * 4 :: t) = some (n, t)
    simp only [decodeCompact]
    rw [if_pos (by omega : n * 4 % 4 = 0)]
    exact congrArg some (Prod.ext (by omega) rfl)
  · by_cases h2 : n < 16384
    · rw [compactEncode, if_neg h1, if_pos h2]
      show decodeCompact ((n * 4 + 1) % 256 :: ((n * 4 + 1) / 256 :: t)) = some (n, t)
      simp only [decodeCompact]
      rw [if_neg (by omega), if_pos (by omega : (n * 4 + 1) % 256 % 4 = 1)]
      exact congrArg some (Prod.ext (by omega) rfl)
    · by_cases h3 : n < 1073741824
      · rw [compactEncode, if_neg h1, if_neg h2, if_pos h3]
        show decodeCompact ((n * 4 + 2) % 256 :: ((n * 4 + 2) / 256 % 256 ::
          ((n * 4 + 2) / 65536 % 256 :: ((n * 4 + 2) / 16777216 % 256 :: t)))) = some (n, t)
        simp only [decodeCompact]
        rw [if_neg (by omega), if_neg (by omega),
          if_pos (by omega : (n * 4 + 2) % 256 % 4 = 2)]
        exact congrArg some (Prod.ext (by omega) rfl)
      · rw [compactEncode, if_neg h1, if_neg h2, if_neg h3]
        show decodeCompact ((((toLEBytes n).length - 4) * 4 + 3) ::
          (toLEBytes n ++ t)) = some (n, t)
        have hlen : 4 ≤ (toLEBytes n).length := toLEBytes_len_ge n (by omega)
        simp only [decodeCompact]
        rw [if_neg (by omega), if_neg (by omega), if_neg (by omega)]
        have hnb : (((toLEBytes n).length - 4) * 4 + 3) / 4 + 4 = (toLEBytes n).length := by
          omega
        simp only [hnb]
        rw [if_neg (by simp), List.take_left, List.drop_left, fromLE_toLE]


theorem encodePair_ne_nil (bd : BlockData) (ex : Extrinsic) : encodePair bd ex ≠ [] := by
  unfold encodePair
  simp [compactEncode_ne_nil]

theorem decodePair_encode (bd : BlockData) (ex : Extrinsic) (t : List Nat) :
    decodePair (encodePair bd ex ++ t) = some (bd, ex) := by
  unfold encodePair decodePair
  rw [List.append_assoc, decodeCompact_encode]
  show (if (bd.bytes ++ t).length < bd.bytes.length then none
    else some ({ bytes := (bd.bytes ++ t).take bd.bytes.length }, Extrinsic.mk))
      = some (bd, ex)
  rw [if_neg (by simp), List.take_left]

/-! ### Shard packing -/

theorem chunksOfGo_congr : ∀ (f g : Nat) (l : List Nat) (k : Nat),
    l.length ≤ f → l.length ≤ g → chunksOfGo f l k = chunksOfGo g l k := by
  intro f
  induction f with
  | zero =>
    intro g l k hf hg
    cases l with
    | nil => cases g <;> cases k <;> rfl
    | cons a rest => simp at hf
  | succ f ih =>
    intro g l k hf hg
    cases l with
    | nil => cases g <;> cases k <;> rfl
    | cons a rest =>
      cases k with
      | zero => cases g <;> rfl
      | succ k0 =>
        cases g with
        | zero => simp at hg
        | succ g0 =>
          simp only [chunksOfGo]
          congr 1
          apply ih
          · rw [List.length_drop]
            simp only [List.length_cons] at hf ⊢
            omega
          · rw [List.length_drop]
            simp only [List.length_cons] at hg ⊢
            omega

theorem chunksOf_nil (k : Nat) : chunksOf [] k = [] := rfl

theorem chunksOf_cons (a : Nat) (rest : List Nat) (k0 : Nat) :
    chunksOf (a :: rest) (k0 + 1)
      = (a :: rest).take (k0 + 1)
        :: chunksOf ((a :: rest).drop (k0 + 1)) (k0 + 1) := by
  show chunksOfGo (a :: rest).length (a :: rest) (k0 + 1) = _
  rw [List.length_cons]
  simp only [chunksOfGo]
  congr 1
  apply chunksOfGo_congr
  · rw [List.length_drop]
    simp
  · rfl

theorem copyInto_length (c s : List Nat) : (copyInto c s).length = s.length := by
  unfold copyInto
  simp only [List.length_append, List.length_take, List.length_drop]
  omega

theorem copyInto_of_le (c s : List Nat) (h : c.length ≤ s.length) :
    copyInto c s = c ++ s.drop c.length := by
  unfold copyInto
  rw [min_eq_left h]
  show c.take c.length ++ s.drop c.length = c ++ s.drop c.length
  rw [List.take_length]

theorem chunksOfGo_mem_length_le (f : Nat) :
    ∀ (l : List Nat) (k : Nat), ∀ c ∈ chunksOfGo f l k, c.length ≤ k := by
  induction f with
  | zero =>
    intro l k c hc
    cases l with
    | nil => simp [chunksOfGo] at hc
    | cons a rest => cases k <;> simp [chunksOfGo] at hc
  | succ f ih =>
    intro l k c hc
    cases l with
    | nil => simp [chunksOfGo] at hc
    | cons a rest =>
      cases k with
      | zero => simp [chunksOfGo] at hc
      | succ k0 =>
        simp only [chunksOfGo] at hc
        rcases List.mem_cons.mp hc with h | h
        · subst h
          simp only [List.length_take]
          omega
        · exact ih _ _ c h

theorem chunksOf_mem_length_le (l : List Nat) (k : Nat) :
    ∀ c ∈ chunksOf l k, c.length ≤ k :=
  chunksOfGo_mem_length_le l.length l k

theorem zipFill_length (cs ss : List (List Nat)) :
    (zipFill cs ss).length = ss.length := by
  induction cs generalizing ss with
  | nil => cases ss <;> simp [zipFill]
  | cons c cs ih => cases ss <;> simp [zipFill, ih]

theorem zipFill_mem_length (cs ss : List (List Nat)) (s : Nat)
    (hss : ∀ y ∈ ss, y.length = s) :
    ∀ x ∈ zipFill cs ss, x.length = s := by
  induction cs generalizing ss with
  | nil =>
    cases ss with
    | nil => simp [zipFill]
    | cons b bs => exact fun x hx => hss x hx
  | cons c cs ih =>
    cases ss with
    | nil => simp [zipFill]
    | cons b bs =>
      intro x hx
      rw [zipFill] at hx
      rcases List.mem_cons.mp hx with h | h
      · subst h
        rw [copyInto_length]
        exact hss b (List.mem_cons_self b bs)
      · exact ih bs (fun y hy => hss y (List.mem_cons_of_mem b hy)) x h

theorem make_shards_for_length (p : CodeParams) (l : List Nat) :
    (p.make_shards_for l).length = p.data_shards + p.parity_shards := by
  unfold CodeParams.make_shards_for
  rw [zipFill_length, List.length_replicate]

theorem make_shards_for_mem_length (p : CodeParams) (l : List Nat) :
    ∀ x ∈ p.make_shards_for l, x.length = p.shard_len l.length := by
  unfold CodeParams.make_shards_for
  exact zipFill_mem_length _ _ _ (fun y hy => by
    rw [List.eq_of_mem_replicate hy, List.length_replicate])

theorem replicate_flatten (n s : Nat) :
    (List.replicate n (List.replicate s (0 : Nat))).flatten = List.replicate (n * s) 0 := by
  induction n with
  | zero => simp
  | succ m ih =>
    rw [List.replicate_succ, List.flatten_cons, ih, ← List.replicate_add]
    congr 1
    ring

theorem shard_len_pos (p : CodeParams) (L : Nat) (hL : 1 ≤ L)
    (hd : 1 ≤ p.data_shards) : 1 ≤ p.shard_len L := by
  unfold CodeParams.shard_len
  rcases Nat.eq_zero_or_pos (L % p.data_shards) with h | h
  · have hdvd : p.data_shards ∣ L := Nat.dvd_of_mod_eq_zero h
    have hge : p.data_shards ≤ L := Nat.le_of_dvd (by omega) hdvd
    have h1 : 1 ≤ L / p.data_shards := (Nat.one_le_div_iff (by omega)).mpr hge
    exact le_trans h1 (Nat.le_add_right _ _)
  · exact le_trans h (Nat.le_add_left _ _)

theorem shard_len_mul_ge (p : CodeParams) (L : Nat) (hd : 1 ≤ p.data_shards) :
    L ≤ p.shard_len L * p.data_shards := by
  unfold CodeParams.shard_len
  calc L = p.data_shards * (L / p.data_shards) + L % p.data_shards :=
        (Nat.div_add_mod L p.data_shards).symm
    _ ≤ p.data_shards * (L / p.data_shards) + L % p.data_shards * p.data_shards :=
        Nat.add_le_add_left (Nat.le_mul_of_pos_right _ (by omega)) _
    _ = (L / p.data_shards + L % p.data_shards) * p.data_shards := by ring

theorem data_region_eq (s : Nat) (hs : 1 ≤ s) :
    ∀ (d : Nat) (l : List Nat) (m : Nat), d ≤ m → l.length ≤ d * s →
    ((zipFill (chunksOf l s) (List.replicate m (List.replicate s 0))).take d).flatten
      = l ++ List.replicate (d * s - l.length) 0 := by
  intro d
  induction d with
  | zero =>
    intro l m _ hfit
    have : l = [] := List.eq_nil_of_length_eq_zero (by omega)
    subst this
    simp
  | succ d ih =>
    intro l m hm hfit
    obtain ⟨s0, rfl⟩ : ∃ s0, s = s0 + 1 := ⟨s - 1, by omega⟩
    cases l with
    | nil =>
      rw [chunksOf_nil]
      have h1 : ∀ cs, zipFill [] cs = cs := fun cs => by cases cs <;> rfl
      rw [h1, List.take_replicate, min_eq_left hm, replicate_flatten]
      simp
    | cons a rest =>
      rw [chunksOf_cons]
      obtain ⟨m0, rfl⟩ : ∃ m0, m = m0 + 1 := ⟨m - 1, by omega⟩
      rw [List.replicate_succ, zipFill, List.take_succ_cons, List.flatten_cons]
      have hlen_take : ((a :: rest).take (s0 + 1)).length = min (s0 + 1) (a :: rest).length := by
        rw [List.length_take]
      have hexp : (d + 1) * (s0 + 1) = d * (s0 + 1) + (s0 + 1) := by ring
      by_cases hcase : (a :: rest).length ≤ s0 + 1
      · -- the whole remaining payload fits in this shard
        rw [List.take_of_length_le hcase]
        rw [copyInto_of_le _ _ (by rw [List.length_replicate]; omega)]
        rw [List.drop_replicate]
        rw [List.drop_eq_nil_of_le hcase, chunksOf_nil]
        have h1 : ∀ cs, zipFill [] cs = cs := fun cs => by cases cs <;> rfl
        rw [h1, List.take_replicate, min_eq_left (by omega), replicate_flatten]
        rw [List.append_assoc, ← List.replicate_add]
        congr 2
        omega
      · -- this shard takes a full-length piece; recurse on the rest
        push_neg at hcase
        rw [copyInto_of_le _ _ (by
          rw [List.length_replicate, List.length_take]
          omega)]
        rw [List.length_take, min_eq_left (by omega), List.drop_replicate]
        have hdrop : ((a :: rest).drop (s0 + 1)).length = (a :: rest).length - (s0 + 1) := by
          rw [List.length_drop]
        rw [ih ((a :: rest).drop (s0 + 1)) m0 (by omega) (by
          rw [hdrop]
          omega)]
        rw [hdrop]
        have hsub : s0 + 1 - (s0 + 1) = 0 := by omega
        rw [hsub, List.replicate_zero, List.append_nil]
        rw [← List.append_assoc, List.take_append_drop]
        congr 2
        omega

theorem chunksOf_count_le (s : Nat) (hs : 1 ≤ s) :
    ∀ (d : Nat) (l : List Nat), l.length ≤ d * s → (chunksOf l s).length ≤ d := by
  intro d
  induction d with
  | zero =>
    intro l hfit
    have : l = [] := List.eq_nil_of_length_eq_zero (by omega)
    subst this
    rw [chunksOf_nil]
    simp
  | succ d ih =>
    intro l hfit
    obtain ⟨s0, rfl⟩ : ∃ s0, s = s0 + 1 := ⟨s - 1, by omega⟩
    cases l with
    | nil =>
      rw [chunksOf_nil]
      simp
    | cons a rest =>
      rw [chunksOf_cons, List.length_cons]
      have hexp : (d + 1) * (s0 + 1) = d * (s0 + 1) + (s0 + 1) := by ring
      have hdrop := ih ((a :: rest).drop (s0 + 1)) (by
        rw [List.length_drop]
        omega)
      omega

theorem code_params_ok (n : Nat) (params : CodeParams)
    (h : code_params n = .ok params) :
    1 ≤ params.data_shards ∧ params.data_shards + params.parity_shards = n ∧
      1 ≤ n ∧ n ≤ 256 := by
  unfold code_params MAX_VALIDATORS at h
  by_cases h1 : n > 256
  · rw [if_pos h1] at h
    exact absurd h (by simp)
  · rw [if_neg h1] at h
    by_cases h2 : n = 0
    · rw [if_pos h2] at h
      exact absurd h (by simp)
    · rw [if_neg h2] at h
      simp only [Except.ok.injEq] at h
      subst h
      refine ⟨by simp, ?_, by omega, by omega⟩
      simp only []
      omega

/-- C2: `code_params` fails `TooManyValidators` exactly when `n > 256`,
fails `EmptyValidators` exactly when `n = 0`, and for `n ∈ [1, 256]`
returns `dataShards = (n-1)/3 + 1` and `parityShards = (n - (n-1)/3) - 1`,
which sum to `n`; it is a pure function of `n` alone. -/
theorem spec_c2_code_params (n : Nat) :
    (code_params n = .error .TooManyValidators ↔ n > 256) ∧
    (code_params n = .error .EmptyValidators ↔ n = 0) ∧
    (1 ≤ n → n ≤ 256 →
      code_params n = .ok { data_shards := (n - 1) / 3 + 1,
                            parity_shards := (n - (n - 1) / 3) - 1 } ∧
      ((n - 1) / 3 + 1) + ((n - (n - 1) / 3) - 1) = n) := by
  unfold code_params MAX_VALIDATORS
  by_cases h1 : n > 256
  · simp [h1]
    omega
  · by_cases h2 : n = 0
    · simp [h1, h2]
    · simp [h1, h2]
      intro _ _
      omega

/-- Witness for C2 at `n = 10`. -/
theorem spec_c2_witness :
    code_params 10 = .ok { data_shards := 4, parity_shards := 6 } ∧ 4 + 6 = 10 := by
  have h := (spec_c2_code_params 10).2.2 (by decide) (by decide)
  exact ⟨h.1, by decide⟩

/-! ### The reconstruct validation loop -/

theorem replicate_getD_none (n i : Nat) :
    (List.replicate n (none : Option (List Nat))).getD i none = none := by
  rw [List.getD_eq_getElem?_getD]
  rcases Nat.lt_or_ge i n with h | h
  · rw [List.getElem?_replicate, if_pos h]
    rfl
  · rw [List.getElem?_eq_none (by rw [List.length_replicate]; omega)]
    rfl

theorem fillLoop_ok_of_valid (n : Nat) (L : Nat) (hL : L ≠ 0) :
    ∀ (items : List (List Nat × Nat)) (init : List (Option (List Nat)))
      (slen : Option Nat),
      (∀ pr ∈ items, pr.2 < n ∧ pr.1.length = L) →
      (slen = none ∨ slen = some L) →
      fillLoop n items init slen = .ok (items.foldl setOp init) := by
  intro items
  induction items with
  | nil => intro init slen _ _; rfl
  | cons hd rest ih =>
    intro init slen hvalid hslen
    obtain ⟨c, i⟩ := hd
    obtain ⟨hi, hlen⟩ := hvalid (c, i) (List.mem_cons_self _ _)
    have hsl : slen.getD c.length = L := by
      rcases hslen with h | h
      · rw [h]
        exact hlen
      · rw [h]
        rfl
    rw [fillLoop]
    rw [if_neg (by omega)]
    show (if slen.getD c.length ≠ c.length ∨ slen.getD c.length = 0
        then Except.error Error.NonUniformChunks
        else fillLoop n rest (init.set i (some c)) (some (slen.getD c.length)))
      = _
    rw [hsl, hlen]
    rw [if_neg (by omega)]
    rw [List.foldl_cons]
    exact ih (init.set i (some c)) (some L)
      (fun pr hpr => hvalid pr (List.mem_cons_of_mem _ hpr)) (Or.inr rfl)

theorem fillLoop_ok_elim : ∀ (items : List (List Nat × Nat)) (n : Nat)
    (init : List (Option (List Nat))) (slen : Option Nat)
    (out : List (Option (List Nat))),
    fillLoop n items init slen = .ok out →
    out = items.foldl setOp init ∧ ∀ pr ∈ items, pr.2 < n := by
  intro items
  induction items with
  | nil =>
    intro n init slen out h
    rw [fillLoop] at h
    simp only [Except.ok.injEq] at h
    exact ⟨h.symm, by simp⟩
  | cons hd rest ih =>
    intro n init slen out h
    obtain ⟨c, j⟩ := hd
    simp only [fillLoop] at h
    by_cases hj : j ≥ n
    · rw [if_pos hj] at h
      exact absurd h (by simp)
    · rw [if_neg hj] at h
      by_cases hcond : slen.getD c.length ≠ c.length ∨ slen.getD c.length = 0
      · rw [if_pos hcond] at h
        exact absurd h (by simp)
      · rw [if_neg hcond] at h
        obtain ⟨hout, hrest⟩ := ih n (init.set j (some c))
          (some (slen.getD c.length)) out h
        refine ⟨by rw [hout, List.foldl_cons]; rfl, ?_⟩
        intro pr hpr
        rcases List.mem_cons.mp hpr with hh | hh
        · subst hh
          omega
        · exact hrest pr hh

theorem foldl_setOp_length : ∀ (items : List (List Nat × Nat))
    (init : List (Option (List Nat))),
    (items.foldl setOp init).length = init.length := by
  intro items
  induction items with
  | nil => intro init; rfl
  | cons hd rest ih =>
    intro init
    rw [List.foldl_cons, ih]
    unfold setOp
    rw [List.length_set]

theorem setOp_getD_eq (init : List (Option (List Nat))) (c : List Nat) (j : Nat)
    (h : j < init.length) : (setOp init (c, j)).getD j none = some c := by
  unfold setOp
  rw [List.getD_eq_getElem?_getD, List.getElem?_set_self (by simpa using h)]
  rfl

theorem setOp_getD_ne (init : List (Option (List Nat))) (c : List Nat)
    (j i : Nat) (h : j ≠ i) :
    (setOp init (c, j)).getD i none = init.getD i none := by
  unfold setOp
  rw [List.getD_eq_getElem?_getD, List.getElem?_set_ne (by simpa using h),
    ← List.getD_eq_getElem?_getD]

theorem foldl_setOp_getD : ∀ (items : List (List Nat × Nat))
    (init : List (Option (List Nat))) (i : Nat), i < init.length →
    (items.foldl setOp init).getD i none
      = match items.reverse.find? (fun pr => pr.2 == i) with
        | some pr => some pr.1
        | none => init.getD i none := by
  intro items
  induction items with
  | nil =>
    intro init i hi
    simp
  | cons hd rest ih =>
    intro init i hi
    obtain ⟨c, j⟩ := hd
    rw [List.foldl_cons]
    have hlen : i < (setOp init (c, j)).length := by
      unfold setOp
      rw [List.length_set]
      exact hi
    rw [ih (setOp init (c, j)) i hlen]
    rw [List.reverse_cons, List.find?_append]
    cases hfind : rest.reverse.find? (fun pr => pr.2 == i) with
    | some pr => simp [hfind]
    | none =>
      simp only [hfind, Option.none_or]
      by_cases hj : j = i
      · subst hj
        have hf1 : List.find? (fun pr => pr.2 == j) [(c, j)] = some (c, j) := by
          simp
        rw [hf1]
        exact setOp_getD_eq init c j hi
      · have hf1 : List.find? (fun pr => pr.2 == i) [(c, j)] = none := by
          simp [hj]
        rw [hf1]
        exact setOp_getD_ne init c j i hj

theorem countSome_cons (x : Option (List Nat)) (l : List (Option (List Nat))) :
    countSome (x :: l) = countSome l + (if x.isSome then 1 else 0) := by
  unfold countSome
  rw [List.countP_cons]

theorem countSome_set (c : List Nat) : ∀ (l : List (Option (List Nat))) (j : Nat),
    j < l.length → l.getD j none = none →
    countSome (l.set j (some c)) = countSome l + 1 := by
  intro l
  induction l with
  | nil =>
    intro j hj _
    simp at hj
  | cons x t ih =>
    intro j hj hnone
    cases j with
    | zero =>
      have hx : x = none := by simpa using hnone
      subst hx
      rw [List.set_cons_zero, countSome_cons, countSome_cons]
      simp
    | succ j0 =>
      rw [List.set_cons_succ, countSome_cons, countSome_cons]
      rw [ih j0 (by simpa using hj) (by simpa using hnone)]
      omega

theorem countSome_foldl : ∀ (items : List (List Nat × Nat))
    (init : List (Option (List Nat))),
    (items.map Prod.snd).Nodup →
    (∀ pr ∈ items, pr.2 < init.length ∧ init.getD pr.2 none = none) →
    countSome (items.foldl setOp init) = countSome init + items.length := by
  intro items
  induction items with
  | nil =>
    intro init _ _
    simp
  | cons hd rest ih =>
    intro init hnd hvalid
    obtain ⟨c, j⟩ := hd
    obtain ⟨hj, hnone⟩ := hvalid _ (List.mem_cons_self _ _)
    simp only [List.map_cons, List.nodup_cons] at hnd
    rw [List.foldl_cons]
    rw [ih (setOp init (c, j)) hnd.2 ?hv]
    case hv =>
      intro pr hpr
      have hne : pr.2 ≠ j := by
        intro hc
        exact hnd.1 (hc ▸ List.mem_map_of_mem Prod.snd hpr)
      constructor
      · unfold setOp
        rw [List.length_set]
        exact (hvalid pr (List.mem_cons_of_mem _ hpr)).1
      · rw [setOp_getD_ne init c j pr.2 (by omega)]
        exact (hvalid pr (List.mem_cons_of_mem _ hpr)).2
    have hcnt : countSome (setOp init (c, j)) = countSome init + 1 :=
      countSome_set c init j hj hnone
    rw [hcnt]
    simp only [List.length_cons]
    omega

/-- C10: for a non-empty payload of length `L` and `dataShards ≥ 1`, the
shard length `s = L / d + L % d` is positive, `s * d` covers `L`, the number
of `s`-sized payload pieces (both as `⌈L / s⌉` and as the piece count the
packing loop actually produces) is at most `d`, no shard of the packed set
is empty, and the whole payload sits inside the data-shard region. -/
theorem spec_c10_shard_len (p : CodeParams) (l : List Nat)
    (hd : 1 ≤ p.data_shards) (hl : l ≠ []) :
    1 ≤ p.shard_len l.length ∧
    l.length ≤ p.shard_len l.length * p.data_shards ∧
    (l.length + p.shard_len l.length - 1) / p.shard_len l.length ≤ p.data_shards ∧
    (chunksOf l (p.shard_len l.length)).length ≤ p.data_shards ∧
    (∀ x ∈ p.make_shards_for l, 1 ≤ x.length) ∧
    (((p.make_shards_for l).take p.data_shards).flatten).take l.length = l := by
  have hL : 1 ≤ l.length := by
    cases l with
    | nil => exact absurd rfl hl
    | cons a t => simp
  have hs := shard_len_pos p l.length hL hd
  have hfit := shard_len_mul_ge p l.length hd
  have hflat : ((p.make_shards_for l).take p.data_shards).flatten
      = l ++ List.replicate (p.data_shards * p.shard_len l.length - l.length) 0 := by
    unfold CodeParams.make_shards_for
    exact data_region_eq (p.shard_len l.length) hs p.data_shards l
      (p.data_shards + p.parity_shards) (by omega) (by
        have : p.shard_len l.length * p.data_shards
            = p.data_shards * p.shard_len l.length := by ring
        omega)
  refine ⟨hs, hfit, ?_, ?_, ?_, ?_⟩
  · refine (Nat.div_le_iff_le_mul_add_pred (by omega)).mpr ?_
    have : p.shard_len l.length * p.data_shards
        = p.shard_len l.length * p.data_shards := rfl
    have hcomm : p.shard_len l.length * p.data_shards
        = p.data_shards * p.shard_len l.length := by ring
    omega
  · exact chunksOf_count_le (p.shard_len l.length) hs p.data_shards l (by
      have hcomm : p.shard_len l.length * p.data_shards
          = p.data_shards * p.shard_len l.length := by ring
      omega)
  · intro x hx
    rw [make_shards_for_mem_length p l x hx]
    exact hs
  · rw [hflat, List.take_left' rfl]

/-- Witness for C10 at `p = {data_shards := 3, parity_shards := 2}` and a
four-byte payload. -/
theorem spec_c10_witness :
    1 ≤ (CodeParams.mk 3 2).shard_len 4 ∧
    (chunksOf [1, 2, 3, 4] ((CodeParams.mk 3 2).shard_len 4)).length ≤ 3 ∧
    ((((CodeParams.mk 3 2).make_shards_for [1, 2, 3, 4]).take 3).flatten).take 4
      = [1, 2, 3, 4] := by
  have h := spec_c10_shard_len (CodeParams.mk 3 2) [1, 2, 3, 4] (by decide) (by decide)
  exact ⟨h.1, h.2.2.2.1, h.2.2.2.2.2⟩

/-- C3: for a valid parameter set and non-empty payload of length `L`,
packing produces exactly `dataShards + parityShards` shards, each of length
`L / dataShards + L % dataShards`, with the payload bytes laid out in order
over the data-shard region and the shortfall zero-padded; and
`obtain_chunks` fails `BadPayload` exactly when the encoded payload is
empty. -/
theorem spec_c3_pack (n : Nat) (params : CodeParams)
    (hcp : code_params n = .ok params)
    (l : List Nat) (hl : l ≠ [])
    (bd : BlockData) (ex : Extrinsic)
    (enc_shards : List (List Nat) → List (List Nat)) :
    (params.make_shards_for l).length = params.data_shards + params.parity_shards ∧
    (∀ x ∈ params.make_shards_for l,
      x.length = l.length / params.data_shards + l.length % params.data_shards) ∧
    ((params.make_shards_for l).take params.data_shards).flatten
      = l ++ List.replicate
          (params.data_shards * params.shard_len l.length - l.length) 0 ∧
    (obtain_chunks enc_shards n bd ex = .error .BadPayload ↔ encodePair bd ex = []) := by
  obtain ⟨hd, hsum, hn1, hn2⟩ := code_params_ok n params hcp
  have hL : 1 ≤ l.length := by
    cases l with
    | nil => exact absurd rfl hl
    | cons a t => simp
  have hs := shard_len_pos params l.length hL hd
  have hfit := shard_len_mul_ge params l.length hd
  refine ⟨make_shards_for_length params l, ?_, ?_, ?_⟩
  · intro x hx
    exact make_shards_for_mem_length params l x hx
  · unfold CodeParams.make_shards_for
    exact data_region_eq (params.shard_len l.length) hs params.data_shards l
      (params.data_shards + params.parity_shards) (by omega) (by
        have hcomm : params.shard_len l.length * params.data_shards
            = params.data_shards * params.shard_len l.length := by ring
        omega)
  · unfold obtain_chunks
    rw [hcp]
    show (if encodePair bd ex = []
        then (Except.error Error.BadPayload : Except Error (List (List Nat)))
        else Except.ok (enc_shards (params.make_shards_for (encodePair bd ex))))
        = Except.error Error.BadPayload ↔ encodePair bd ex = []
    by_cases he : encodePair bd ex = []
    · rw [if_pos he]
      simp [he]
    · rw [if_neg he]
      simp [he]

/-- Witness for C3 at `n = 10` and a six-byte payload. -/
theorem spec_c3_witness :
    ((CodeParams.mk 4 6).make_shards_for [1, 2, 3, 4, 5, 6]).length = 4 + 6 ∧
    ((CodeParams.mk 4 6).make_shards_for [1, 2, 3, 4, 5, 6]).take 4
      = [[1, 2, 3], [4, 5, 6], [0, 0, 0], [0, 0, 0]] ∧
    (obtain_chunks id 10 (BlockData.mk [7]) Extrinsic.mk
      = .error Error.BadPayload ↔ encodePair (BlockData.mk [7]) Extrinsic.mk = []) := by
  have h := spec_c3_pack 10 (CodeParams.mk 4 6) (by decide) [1, 2, 3, 4, 5, 6]
    (by decide) (BlockData.mk [7]) Extrinsic.mk id
  exact ⟨h.1, by decide, h.2.2.2⟩

theorem getLast_filter_eq_reverse_find (l : List (List Nat × Nat)) (i : Nat) :
    (l.filter (fun pr => pr.2 == i)).getLast?
      = l.reverse.find? (fun pr => pr.2 == i) := by
  rw [← List.head?_reverse, ← List.filter_reverse, List.filter_head?]

/-- C6: when the validation loop of `reconstruct` succeeds, the sparse shard
slot of every index `i` holds the bytes of the last consumed item carrying
index `i` (later duplicates silently overwrite earlier ones, with no error),
and the reconstruction proceeds from that sparse array. -/
theorem spec_c6_duplicate (n : Nat) (params : CodeParams)
    (hcp : code_params n = .ok params)
    (rec_shards : List (Option (List Nat)) → Except RSError (List (List Nat)))
    (chunks : List (List Nat × Nat)) (sparse : List (Option (List Nat)))
    (hfill : fillShards n (chunks.take n) = .ok sparse) :
    (∀ i, i < n →
      sparse.getD i none
        = match ((chunks.take n).filter (fun pr => pr.2 == i)).getLast? with
          | some pr => some pr.1
          | none => none) ∧
    reconstruct rec_shards n chunks
      = reconstructPost rec_shards params.data_shards sparse := by
  obtain ⟨hout, _⟩ := fillLoop_ok_elim (chunks.take n) n
    (List.replicate n none) none sparse hfill
  constructor
  · intro i hi
    rw [hout, foldl_setOp_getD (chunks.take n) _ i
      (by rw [List.length_replicate]; exact hi)]
    rw [getLast_filter_eq_reverse_find]
    cases hfind : (chunks.take n).reverse.find? (fun pr => pr.2 == i) with
    | some pr => simp [hfind]
    | none => simp [hfind, replicate_getD_none]
  · unfold reconstruct
    rw [hcp]
    show (match fillShards n (chunks.take n) with
      | .error e => .error e
      | .ok shards => reconstructPost rec_shards params.data_shards shards)
        = reconstructPost rec_shards params.data_shards sparse
    rw [hfill]

/-- Witness for C6 at `n = 3` with a duplicated index 0. -/
theorem spec_c6_witness :
    fillShards 3 [([1, 1], 0), ([2, 2], 0), ([3, 3], 1)]
      = .ok [some [2, 2], some [3, 3], none] ∧
    [some [2, 2], some [3, 3], (none : Option (List Nat))].getD 0 none = some [2, 2] ∧
    reconstruct recNever 3 [([1, 1], 0), ([2, 2], 0), ([3, 3], 1)]
      = reconstructPost recNever 1 [some [2, 2], some [3, 3], none] := by
  have hfill : fillShards 3 [([1, 1], 0), ([2, 2], 0), ([3, 3], 1)]
      = .ok [some [2, 2], some [3, 3], none] := by decide
  have h := spec_c6_duplicate 3 (CodeParams.mk 1 2) rfl recNever
    [([1, 1], 0), ([2, 2], 0), ([3, 3], 1)] [some [2, 2], some [3, 3], none]
    (by
      show fillShards 3 [([1, 1], 0), ([2, 2], 0), ([3, 3], 1)] = _
      exact hfill)
  refine ⟨hfill, ?_, h.2⟩
  have h0 := h.1 0 (by decide)
  exact h0.trans (by decide)

theorem fillLoop_append (n L : Nat) (hL : L ≠ 0) :
    ∀ (pre rest : List (List Nat × Nat)) (init : List (Option (List Nat))),
      pre ≠ [] →
      (∀ pr ∈ pre, pr.2 < n ∧ pr.1.length = L) →
      ∀ slen : Option Nat, (slen = none ∨ slen = some L) →
      fillLoop n (pre ++ rest) init slen
        = fillLoop n rest (pre.foldl setOp init) (some L) := by
  intro pre
  induction pre with
  | nil =>
    intro rest init hne
    exact absurd rfl hne
  | cons hd pre0 ih =>
    intro rest init _ hvalid slen hslen
    obtain ⟨c, j⟩ := hd
    obtain ⟨hj, hlen⟩ := hvalid (c, j) (List.mem_cons_self _ _)
    have hsl : slen.getD c.length = L := by
      rcases hslen with h | h
      · rw [h]
        exact hlen
      · rw [h]
        rfl
    rw [List.cons_append, fillLoop]
    rw [if_neg (by omega)]
    show (if slen.getD c.length ≠ c.length ∨ slen.getD c.length = 0
        then Except.error Error.NonUniformChunks
        else fillLoop n (pre0 ++ rest) (init.set j (some c))
          (some (slen.getD c.length)))
      = _
    rw [hsl, hlen]
    rw [if_neg (by omega)]
    rw [List.foldl_cons]
    cases hpre0 : pre0 with
    | nil =>
      subst hpre0
      rfl
    | cons q qs =>
      subst hpre0
      exact ih rest (setOp init (c, j)) (by simp)
        (fun pr hpr => hvalid pr (List.mem_cons_of_mem _ hpr)) (some L) (Or.inr rfl)

theorem code_params_isOk (n : Nat) (h1 : 1 ≤ n) (h256 : n ≤ 256) :
    ∃ params, code_params n = .ok params := by
  unfold code_params MAX_VALIDATORS
  rw [if_neg (by omega), if_neg (by omega)]
  exact ⟨_, rfl⟩

/-- C4: `reconstruct` consumes at most `n` items — items beyond the `n`-th
change nothing — and, walking the consumed items in order past any clean
prefix, it fails `ChunkIndexOutOfBounds(index, n)` on an item whose index is
at least `n`, and `NonUniformChunks` on an item whose byte length differs
from the first consumed item's length or when that length is zero. -/
theorem spec_c4_consume
    (rec_shards : List (Option (List Nat)) → Except RSError (List (List Nat)))
    (n : Nat) (h1 : 1 ≤ n) (h256 : n ≤ 256)
    (chunks : List (List Nat × Nat)) :
    reconstruct rec_shards n chunks = reconstruct rec_shards n (chunks.take n) ∧
    (∀ k, k < n → k < chunks.length →
      (∀ j, j < k → (chunks.getD j ([], 0)).2 < n ∧
        (chunks.getD j ([], 0)).1.length = (chunks.getD 0 ([], 0)).1.length ∧
        (chunks.getD 0 ([], 0)).1.length ≠ 0) →
      ((chunks.getD k ([], 0)).2 ≥ n →
        reconstruct rec_shards n chunks
          = .error (.ChunkIndexOutOfBounds (chunks.getD k ([], 0)).2 n)) ∧
      ((chunks.getD k ([], 0)).2 < n →
        ((chunks.getD k ([], 0)).1.length ≠ (chunks.getD 0 ([], 0)).1.length ∨
          (chunks.getD 0 ([], 0)).1.length = 0) →
        reconstruct rec_shards n chunks = .error .NonUniformChunks)) := by
  obtain ⟨params, hcp⟩ := code_params_isOk n h1 h256
  constructor
  · unfold reconstruct
    rw [List.take_take, min_self]
  · intro k hkn hklen hclean
    have hkc : k < (chunks.take n).length := by
      rw [List.length_take]
      omega
    have htakeD : ∀ j, j < n →
        (chunks.take n).getD j ([], 0) = chunks.getD j ([], 0) := by
      intro j hj
      rw [List.getD_eq_getElem?_getD, List.getD_eq_getElem?_getD,
        List.getElem?_take_of_lt hj]
    have hsplit : chunks.take n
        = (chunks.take n).take k
          ++ (chunks.getD k ([], 0) :: (chunks.take n).drop (k + 1)) := by
      rw [← htakeD k hkn, List.getD_eq_getElem _ _ hkc,
        ← List.drop_eq_getElem_cons hkc, List.take_append_drop]
    have herr : ∀ e : Error,
        fillShards n (chunks.take n) = .error e →
        reconstruct rec_shards n chunks = .error e := by
      intro e he
      unfold reconstruct
      rw [hcp]
      show (match fillShards n (chunks.take n) with
        | .error e => (.error e : Except Error (BlockData × Extrinsic))
        | .ok shards => reconstructPost rec_shards params.data_shards shards) = _
      rw [he]
    have hpre_val : ∀ pr ∈ (chunks.take n).take k,
        pr.2 < n ∧ pr.1.length = (chunks.getD 0 ([], 0)).1.length := by
      intro pr hpr
      obtain ⟨jj, hjj, hget⟩ := List.mem_iff_getElem.mp hpr
      have hjk : jj < k := by
        rw [List.length_take, List.length_take] at hjj
        omega
      have hjn : jj < n := by omega
      have hel : pr = chunks.getD jj ([], 0) := by
        rw [← hget, List.getElem_take, ← List.getD_eq_getElem _ ([], 0), htakeD jj hjn]
      obtain ⟨ha, hb, _⟩ := hclean jj hjk
      rw [hel]
      exact ⟨ha, hb⟩
    rcases hitem : chunks.getD k ([], 0) with ⟨c, i⟩
    rw [hitem] at hsplit
    constructor
    · intro hbad
      have hbad2 : i ≥ n := hbad
      apply herr
      unfold fillShards
      rw [hsplit]
      cases hk : k with
      | zero =>
        subst hk
        simp only [List.take_zero, List.nil_append]
        rw [fillLoop, if_pos (by omega)]
      | succ k0 =>
        subst hk
        rw [fillLoop_append n (chunks.getD 0 ([], 0)).1.length
          (hclean 0 (by omega)).2.2
          ((chunks.take n).take (k0 + 1)) _ _
          (by
            intro hc
            have hzero : ((chunks.take n).take (k0 + 1)).length = 0 := by
              rw [hc]
              rfl
            rw [List.length_take, List.length_take] at hzero
            omega)
          hpre_val none (Or.inl rfl)]
        rw [fillLoop, if_pos (by omega)]
    · intro hgood hmis
      have hgood2 : i < n := hgood
      have hmis2 : c.length ≠ (chunks.getD 0 ([], 0)).1.length
          ∨ (chunks.getD 0 ([], 0)).1.length = 0 := hmis
      apply herr
      unfold fillShards
      rw [hsplit]
      cases hk : k with
      | zero =>
        subst hk
        have hL0 : (chunks.getD 0 ([], 0)).1.length = c.length := by
          rw [hitem]
        simp only [List.take_zero, List.nil_append]
        rw [fillLoop, if_neg (by omega)]
        show (if (none : Option Nat).getD c.length ≠ c.length
            ∨ (none : Option Nat).getD c.length = 0
          then (Except.error Error.NonUniformChunks
            : Except Error (List (Option (List Nat))))
          else fillLoop n ((chunks.take n).drop (0 + 1))
            ((List.replicate n none).set i (some c))
            (some ((none : Option Nat).getD c.length))) = _
        rw [if_pos (by
          show c.length ≠ c.length ∨ c.length = 0
          omega)]
      | succ k0 =>
        subst hk
        rw [fillLoop_append n (chunks.getD 0 ([], 0)).1.length
          (hclean 0 (by omega)).2.2
          ((chunks.take n).take (k0 + 1)) _ _
          (by
            intro hc
            have hzero : ((chunks.take n).take (k0 + 1)).length = 0 := by
              rw [hc]
              rfl
            rw [List.length_take, List.length_take] at hzero
            omega)
          hpre_val none (Or.inl rfl)]
        rw [fillLoop, if_neg (by omega)]
        show (if (some (chunks.getD 0 ([], 0)).1.length).getD c.length ≠ c.length
            ∨ (some (chunks.getD 0 ([], 0)).1.length).getD c.length = 0
          then (Except.error Error.NonUniformChunks
            : Except Error (List (Option (List Nat))))
          else fillLoop n ((chunks.take n).drop (k0 + 1 + 1))
            ((((chunks.take n).take (k0 + 1)).foldl setOp
              (List.replicate n none)).set i (some c))
            (some ((some (chunks.getD 0 ([], 0)).1.length).getD c.length)))
          = _
        rw [if_pos (by
          show (chunks.getD 0 ([], 0)).1.length ≠ c.length
            ∨ (chunks.getD 0 ([], 0)).1.length = 0
          omega)]

/-- Witness for C4 at `n = 2` with a length mismatch on the second item. -/
theorem spec_c4_witness :
    reconstruct recNever 2 [([5], 0), ([7, 8], 1)]
      = .error Error.NonUniformChunks := by
  have h := (spec_c4_consume recNever 2 (by decide) (by decide)
    [([5], 0), ([7, 8], 1)]).2 1 (by decide) (by decide)
    (by decide)
  exact h.2 (by decide) (by decide)

theorem countSome_replicate (n : Nat) :
    countSome (List.replicate n none) = 0 := by
  induction n with
  | zero => rfl
  | succ m ih =>
    rw [List.replicate_succ, countSome_cons, ih]
    simp

theorem getD_mem (cs : List (List Nat)) (i : Nat) (h : i < cs.length) :
    cs.getD i [] ∈ cs := by
  rw [List.getD_eq_getElem _ _ h]
  exact List.getElem_mem h

/-- The common core of the round-trip and fault-threshold claims: feeding
`reconstruct` exactly `dataShards` distinct-index chunks drawn from a chunk
set `cs` that agrees with the packed payload on its data region recovers the
original payload, provided the external primitive keeps its recovery
contract on that chunk set. -/
theorem reconstruct_roundtrip_core
    (n : Nat) (params : CodeParams) (hcp : code_params n = .ok params)
    (bd : BlockData) (ex : Extrinsic) (cs : List (List Nat))
    (rec_shards : List (Option (List Nat)) → Except RSError (List (List Nat)))
    (hlen : cs.length = n)
    (hdata : cs.take params.data_shards
      = (params.make_shards_for (encodePair bd ex)).take params.data_shards)
    (huni : ∀ c ∈ cs, c.length = params.shard_len (encodePair bd ex).length)
    (hrec : ∀ sparse, sparse.length = n →
      (∀ i v, sparse.getD i none = some v → v = cs.getD i []) →
      params.data_shards ≤ countSome sparse →
      rec_shards sparse = .ok cs)
    (S : List (List Nat × Nat))
    (hS : S.length = params.data_shards)
    (hnd : (S.map Prod.snd).Nodup)
    (hmem : ∀ pr ∈ S, pr.2 < n ∧ pr.1 = cs.getD pr.2 []) :
    reconstruct rec_shards n S = .ok (bd, ex) := by
  obtain ⟨hd1, hsum, hn1, hn2⟩ := code_params_ok n params hcp
  have hpe : 1 ≤ (encodePair bd ex).length := by
    have := encodePair_ne_nil bd ex
    cases hc : encodePair bd ex with
    | nil => exact absurd hc this
    | cons x t => simp [hc]
  have hs1 : 1 ≤ params.shard_len (encodePair bd ex).length :=
    shard_len_pos params _ hpe hd1
  have hvalid : ∀ pr ∈ S, pr.2 < n
      ∧ pr.1.length = params.shard_len (encodePair bd ex).length := by
    intro pr hpr
    obtain ⟨hi, hv⟩ := hmem pr hpr
    refine ⟨hi, ?_⟩
    rw [hv]
    exact huni _ (getD_mem cs pr.2 (by omega))
  have htake : S.take n = S := List.take_of_length_le (by omega)
  have hfill : fillShards n (S.take n)
      = .ok (S.foldl setOp (List.replicate n none)) := by
    rw [htake]
    exact fillLoop_ok_of_valid n (params.shard_len (encodePair bd ex).length)
      (by omega) S (List.replicate n none) none hvalid (Or.inl rfl)
  have hsplen : (S.foldl setOp (List.replicate n none)).length = n := by
    rw [foldl_setOp_length, List.length_replicate]
  have hagree : ∀ i v,
      (S.foldl setOp (List.replicate n none)).getD i none = some v →
      v = cs.getD i [] := by
    intro i v hv
    by_cases hi : i < n
    · rw [foldl_setOp_getD S _ i (by rw [List.length_replicate]; exact hi)] at hv
      cases hfind : S.reverse.find? (fun pr => pr.2 == i) with
      | some pr =>
        rw [hfind] at hv
        have hpr : pr ∈ S := List.mem_reverse.mp (List.mem_of_find?_eq_some hfind)
        have hpi : pr.2 = i := by
          have := List.find?_some hfind
          simpa using this
        obtain ⟨_, hval⟩ := hmem pr hpr
        simp only [Option.some.injEq] at hv
        rw [← hv, hval, hpi]
      | none =>
        rw [hfind, replicate_getD_none] at hv
        exact absurd hv (by simp)
    · rw [List.getD_eq_default _ _ (by omega)] at hv
      exact absurd hv (by simp)
  have hcount : params.data_shards
      ≤ countSome (S.foldl setOp (List.replicate n none)) := by
    rw [countSome_foldl S (List.replicate n none) hnd (by
      intro pr hpr
      refine ⟨?_, replicate_getD_none n pr.2⟩
      rw [List.length_replicate]
      exact (hmem pr hpr).1)]
    rw [countSome_replicate, hS]
    omega
  have hrs : rec_shards (S.foldl setOp (List.replicate n none)) = .ok cs :=
    hrec _ hsplen hagree hcount
  have hflat : (cs.take params.data_shards).flatten
      = encodePair bd ex ++ List.replicate
        (params.data_shards * params.shard_len (encodePair bd ex).length
          - (encodePair bd ex).length) 0 := by
    rw [hdata]
    unfold CodeParams.make_shards_for
    exact data_region_eq (params.shard_len (encodePair bd ex).length) hs1
      params.data_shards (encodePair bd ex)
      (params.data_shards + params.parity_shards) (by omega) (by
        have hfit := shard_len_mul_ge params (encodePair bd ex).length hd1
        have hcomm : params.shard_len (encodePair bd ex).length * params.data_shards
            = params.data_shards * params.shard_len (encodePair bd ex).length := by
          ring
        omega)
  unfold reconstruct
  rw [hcp]
  show (match fillShards n (S.take n) with
    | .error e => (.error e : Except Error (BlockData × Extrinsic))
    | .ok shards => reconstructPost rec_shards params.data_shards shards) = _
  rw [hfill]
  show reconstructPost rec_shards params.data_shards
    (S.foldl setOp (List.replicate n none)) = _
  unfold reconstructPost
  rw [hrs]
  show (match decodePair (shardInputBytes params.data_shards cs) with
    | some res => (Except.ok res : Except Error (BlockData × Extrinsic))
    | none => .error .BadPayload) = _
  unfold shardInputBytes
  rw [hflat, decodePair_encode]

/-- C1: for `n ∈ [1, 256]` and a payload with non-empty encoding, feeding
`reconstruct` any `dataShards`-sized set of distinct, correctly-indexed
chunks taken from the output of `obtain_chunks` returns the original
`(blockData, extrinsic)` pair, given the spec's contract for the external
erasure-coding primitive (systematic encoding, uniform shard lengths,
recovery from any `dataShards` correctly-placed shards). -/
theorem spec_c1_roundtrip
    (n : Nat) (_h1 : 1 ≤ n) (_h256 : n ≤ 256)
    (params : CodeParams) (hcp : code_params n = .ok params)
    (bd : BlockData) (ex : Extrinsic)
    (_hne : encodePair bd ex ≠ [])
    (enc_shards : List (List Nat) → List (List Nat))
    (cs : List (List Nat))
    (_hobt : obtain_chunks enc_shards n bd ex = .ok cs)
    (rec_shards : List (Option (List Nat)) → Except RSError (List (List Nat)))
    (hlen : cs.length = n)
    (hdata : cs.take params.data_shards
      = (params.make_shards_for (encodePair bd ex)).take params.data_shards)
    (huni : ∀ c ∈ cs, c.length = params.shard_len (encodePair bd ex).length)
    (hrec : ∀ sparse, sparse.length = n →
      (∀ i v, sparse.getD i none = some v → v = cs.getD i []) →
      params.data_shards ≤ countSome sparse →
      rec_shards sparse = .ok cs)
    (S : List (List Nat × Nat))
    (hS : S.length = params.data_shards)
    (hnd : (S.map Prod.snd).Nodup)
    (hmem : ∀ pr ∈ S, pr.2 < n ∧ pr.1 = cs.getD pr.2 []) :
    reconstruct rec_shards n S = .ok (bd, ex) :=
  reconstruct_roundtrip_core n params hcp bd ex cs rec_shards hlen hdata huni
    hrec S hS hnd hmem

/-- Witness for C1 at `n = 1` with block data `[7]`. -/
theorem spec_c1_witness :
    reconstruct recOne 1 [([4, 7], 0)]
      = .ok (BlockData.mk [7], Extrinsic.mk) := by
  have hrec : ∀ sparse : List (Option (List Nat)), sparse.length = 1 →
      (∀ i v, sparse.getD i none = some v → v = [[4, 7]].getD i []) →
      1 ≤ countSome sparse →
      recOne sparse = .ok [[4, 7]] := by
    intro sparse hl hag hc
    cases sparse with
    | nil => simp at hl
    | cons x t =>
      have ht : t = [] := by
        simp only [List.length_cons] at hl
        exact List.eq_nil_of_length_eq_zero (by omega)
      subst ht
      cases x with
      | none => exact absurd hc (by decide)
      | some v =>
        have hv := hag 0 v rfl
        rw [hv]
        rfl
  exact spec_c1_roundtrip 1 (by decide) (by decide) (CodeParams.mk 1 0) rfl
    (BlockData.mk [7]) Extrinsic.mk (by decide) id [[4, 7]] (by decide)
    recOne (by decide) (by decide) (by decide) hrec
    [([4, 7], 0)] (by decide) (by decide) (by decide)

/-- C5: for `n ∈ [1, 256]`, supplying fewer than `dataShards` distinct-index
valid chunks (the empty sequence included) fails `NotEnoughChunks`, while
exactly `dataShards` correctly-indexed chunks drawn from an encoding
succeed, given the spec's contract for the external primitive. -/
theorem spec_c5_threshold (n : Nat) (params : CodeParams)
    (hcp : code_params n = .ok params)
    (rec_shards : List (Option (List Nat)) → Except RSError (List (List Nat))) :
    ((∀ sparse, sparse.length = n → countSome sparse < params.data_shards →
        rec_shards sparse = .error .TooFewShardsPresent) →
      ∀ (chunks : List (List Nat × Nat)) (L : Nat), L ≠ 0 →
        (∀ pr ∈ chunks, pr.2 < n ∧ pr.1.length = L) →
        (chunks.map Prod.snd).Nodup →
        chunks.length < params.data_shards →
        reconstruct rec_shards n chunks = .error .NotEnoughChunks) ∧
    (∀ (bd : BlockData) (ex : Extrinsic) (cs : List (List Nat)),
      cs.length = n →
      cs.take params.data_shards
        = (params.make_shards_for (encodePair bd ex)).take params.data_shards →
      (∀ c ∈ cs, c.length = params.shard_len (encodePair bd ex).length) →
      (∀ sparse, sparse.length = n →
        (∀ i v, sparse.getD i none = some v → v = cs.getD i []) →
        params.data_shards ≤ countSome sparse →
        rec_shards sparse = .ok cs) →
      ∀ S : List (List Nat × Nat), S.length = params.data_shards →
        (S.map Prod.snd).Nodup →
        (∀ pr ∈ S, pr.2 < n ∧ pr.1 = cs.getD pr.2 []) →
        ∃ out, reconstruct rec_shards n S = .ok out) := by
  obtain ⟨hd1, hsum, hn1, hn2⟩ := code_params_ok n params hcp
  constructor
  · intro hfew chunks L hL hvalid hnd hlt
    have htake : chunks.take n = chunks := List.take_of_length_le (by omega)
    have hfill : fillShards n (chunks.take n)
        = .ok (chunks.foldl setOp (List.replicate n none)) := by
      rw [htake]
      exact fillLoop_ok_of_valid n L hL chunks (List.replicate n none) none
        hvalid (Or.inl rfl)
    have hsplen : (chunks.foldl setOp (List.replicate n none)).length = n := by
      rw [foldl_setOp_length, List.length_replicate]
    have hcount : countSome (chunks.foldl setOp (List.replicate n none))
        < params.data_shards := by
      rw [countSome_foldl chunks (List.replicate n none) hnd (by
        intro pr hpr
        refine ⟨?_, replicate_getD_none n pr.2⟩
        rw [List.length_replicate]
        exact (hvalid pr hpr).1)]
      rw [countSome_replicate]
      omega
    unfold reconstruct
    rw [hcp]
    show (match fillShards n (chunks.take n) with
      | .error e => (.error e : Except Error (BlockData × Extrinsic))
      | .ok shards => reconstructPost rec_shards params.data_shards shards) = _
    rw [hfill]
    show reconstructPost rec_shards params.data_shards
      (chunks.foldl setOp (List.replicate n none)) = _
    unfold reconstructPost
    rw [hfew _ hsplen hcount]
  · intro bd ex cs hlen hdata huni hrec S hS hnd hmem
    exact ⟨(bd, ex), reconstruct_roundtrip_core n params hcp bd ex cs
      rec_shards hlen hdata huni hrec S hS hnd hmem⟩

/-- Witness for C5 at `n = 1`: the empty chunk sequence fails
`NotEnoughChunks`, one correctly-indexed chunk of block data `[9]`
reconstructs. -/
theorem spec_c5_witness :
    reconstruct recOne 1 [] = .error Error.NotEnoughChunks ∧
    ∃ out, reconstruct recOne 1 [([4, 9], 0)] = .ok out := by
  have hfew : ∀ sparse : List (Option (List Nat)), sparse.length = 1 →
      countSome sparse < 1 →
      recOne sparse = .error RSError.TooFewShardsPresent := by
    intro sparse hl hc
    cases sparse with
    | nil => simp at hl
    | cons x t =>
      have ht : t = [] := by
        simp only [List.length_cons] at hl
        exact List.eq_nil_of_length_eq_zero (by omega)
      subst ht
      cases x with
      | none => rfl
      | some v => exact absurd hc (by
          show ¬countSome [some v] < 1
          simp [countSome])
  have hrec : ∀ sparse : List (Option (List Nat)), sparse.length = 1 →
      (∀ i v, sparse.getD i none = some v → v = [[4, 9]].getD i []) →
      1 ≤ countSome sparse →
      recOne sparse = .ok [[4, 9]] := by
    intro sparse hl hag hc
    cases sparse with
    | nil => simp at hl
    | cons x t =>
      have ht : t = [] := by
        simp only [List.length_cons] at hl
        exact List.eq_nil_of_length_eq_zero (by omega)
      subst ht
      cases x with
      | none => exact absurd hc (by decide)
      | some v =>
        have hv := hag 0 v rfl
        rw [hv]
        rfl
  have h := spec_c5_threshold 1 (CodeParams.mk 1 0) rfl recOne
  constructor
  · exact h.1 hfew [] 1 (by decide) (by simp) (by simp) (by decide)
  · exact h.2 (BlockData.mk [9]) Extrinsic.mk [[4, 9]] (by decide) (by decide)
      (by decide) hrec [([4, 9], 0)] (by decide) (by decide) (by decide)

/-! ### The shard stream reader -/

theorem availFrom_zero (shards : List (Option (List Nat))) (d j : Nat) :
    availFrom shards d j 0
      = (((shards.take d).drop j).map (fun o => o.getD [])).flatten := by
  unfold availFrom
  cases h : (shards.take d).drop j with
  | nil => simp
  | cons s0 rest => simp

theorem availFrom_of_ge (shards : List (Option (List Nat))) (d j off : Nat)
    (h : d ≤ j) : availFrom shards d j off = [] := by
  unfold availFrom
  rw [List.drop_eq_nil_of_le (by
    rw [List.length_take]
    omega)]

theorem readLoop_spec : ∀ (fuel : Nat) (shards : List (Option (List Nat)))
    (d si off rem : Nat) (acc : List Nat),
    (∀ i, i < d → shards.getD i none ≠ none) →
    (d - si) + rem ≤ fuel →
    (readLoop shards d fuel si off rem acc).1
      = acc ++ (availFrom shards d si off).take rem := by
  intro fuel
  induction fuel with
  | zero =>
    intro shards d si off rem acc _ hfuel
    have h1 : d ≤ si := by omega
    have h2 : rem = 0 := by omega
    rw [readLoop]
    rw [h2, List.take_zero, List.append_nil]
  | succ fuel ih =>
    intro shards d si off rem acc hpres hfuel
    rw [readLoop]
    by_cases hsi : si < d
    · rw [if_pos hsi]
      by_cases hrem : rem = 0
      · rw [if_pos hrem, hrem, List.take_zero, List.append_nil]
      · rw [if_neg hrem]
        cases hget : shards.getD si none with
        | none => exact absurd hget (hpres si hsi)
        | some active =>
          have hsilen : si < shards.length := by
            by_contra hc
            rw [List.getD_eq_default _ _ (by omega)] at hget
            exact absurd hget (by simp)
          have hsitake : si < (shards.take d).length := by
            rw [List.length_take]
            omega
          have hdrop : (shards.take d).drop si
              = some active :: (shards.take d).drop (si + 1) := by
            rw [List.drop_eq_getElem_cons hsitake]
            congr 1
            rw [← List.getD_eq_getElem _ none hsitake,
              List.getD_eq_getElem?_getD, List.getElem?_take_of_lt hsi,
              ← List.getD_eq_getElem?_getD]
            exact hget
          have havail : availFrom shards d si off
              = active.drop off
                ++ (((shards.take d).drop (si + 1)).map (fun o => o.getD [])).flatten := by
            unfold availFrom
            rw [hdrop]
            rfl
          dsimp only
          by_cases hadv : active.length ≤ off
          · rw [if_pos hadv]
            rw [ih shards d (si + 1) 0 rem acc hpres (by omega)]
            have hnil : active.drop off = [] := List.drop_eq_nil_of_le (by omega)
            rw [availFrom_zero, havail, hnil, List.nil_append]
          · rw [if_neg hadv]
            rw [ih shards d si (off + min rem (active.length - off))
              (rem - min rem (active.length - off)) _ hpres (by omega)]
            rw [List.append_assoc]
            congr 1
            have havail2 : availFrom shards d si
                (off + min rem (active.length - off))
                = active.drop (off + min rem (active.length - off))
                  ++ (((shards.take d).drop (si + 1)).map (fun o => o.getD [])).flatten := by
              unfold availFrom
              rw [hdrop]
              rfl
            rw [havail, havail2]
            rw [show active.drop (off + min rem (active.length - off))
                = (active.drop off).drop (min rem (active.length - off)) from by
              rw [List.drop_drop, Nat.add_comm]]
            rw [List.take_append_eq_append_take, List.take_append_eq_append_take]
            rw [← List.append_assoc]
            congr 1
            · rw [← List.take_add]
              congr 1
              omega
            · congr 1
              simp only [List.length_drop]
              omega
    · rw [if_neg hsi]
      rw [availFrom_of_ge shards d si off (by omega)]
      rw [List.take_nil, List.append_nil]

theorem getD_take_of_lt (l : List (Option (List Nat))) (d i : Nat) (h : i < d) :
    (l.take d).getD i none = l.getD i none := by
  rw [List.getD_eq_getElem?_getD, List.getD_eq_getElem?_getD,
    List.getElem?_take_of_lt h]

theorem readLoop_take_d : ∀ (fuel : Nat)
    (shards1 shards2 : List (Option (List Nat))) (d si off rem : Nat)
    (acc : List Nat),
    shards1.take d = shards2.take d →
    readLoop shards1 d fuel si off rem acc
      = readLoop shards2 d fuel si off rem acc := by
  intro fuel
  induction fuel with
  | zero =>
    intro shards1 shards2 d si off rem acc _
    rfl
  | succ fuel ih =>
    intro shards1 shards2 d si off rem acc heq
    rw [readLoop, readLoop]
    by_cases hsi : si < d
    · rw [if_pos hsi, if_pos hsi]
      by_cases hrem : rem = 0
      · rw [if_pos hrem, if_pos hrem]
      · rw [if_neg hrem, if_neg hrem]
        have hgets : shards1.getD si none = shards2.getD si none := by
          rw [← getD_take_of_lt shards1 d si hsi, ← getD_take_of_lt shards2 d si hsi,
            heq]
        rw [← hgets]
        cases hget : shards1.getD si none with
        | none => rfl
        | some active =>
          dsimp only
          by_cases hadv : active.length ≤ off
          · rw [if_pos hadv, if_pos hadv]
            exact ih shards1 shards2 d (si + 1) 0 rem acc heq
          · rw [if_neg hadv, if_neg hadv]
            exact ih shards1 shards2 d si _ _ _ heq
    · rw [if_neg hsi, if_neg hsi]

/-- C9: with the data shards present, a read of `k` bytes copies bytes
across shard boundaries in shard order from the cursor until `k` bytes are
supplied or the shard index reaches `dataShards`, returns the number of
bytes actually copied (possibly fewer than `k`, with no separate
end-of-stream signal), and never reads parity shards. -/
theorem spec_c9_read (s : ShardInput) (k : Nat)
    (hpres : ∀ i, i < s.data_shards → s.shards.getD i none ≠ none) :
    (s.read k).1
      = (availFrom s.shards s.data_shards s.cursor.1 s.cursor.2).take k ∧
    (s.read k).1.length
      = min k (availFrom s.shards s.data_shards s.cursor.1 s.cursor.2).length ∧
    (∀ s2 : ShardInput, s2.data_shards = s.data_shards →
      s2.cursor = s.cursor →
      s2.shards.take s.data_shards = s.shards.take s.data_shards →
      (s2.read k).1 = (s.read k).1) := by
  have hmain : (s.read k).1
      = (availFrom s.shards s.data_shards s.cursor.1 s.cursor.2).take k := by
    unfold ShardInput.read
    exact readLoop_spec (s.data_shards + k) s.shards s.data_shards
      s.cursor.1 s.cursor.2 k [] hpres (by omega)
  refine ⟨hmain, ?_, ?_⟩
  · rw [hmain, List.length_take]
  · intro s2 hd2 hc2 hs2
    unfold ShardInput.read
    show (readLoop s2.shards s2.data_shards (s2.data_shards + k)
        s2.cursor.1 s2.cursor.2 k []).1
      = (readLoop s.shards s.data_shards (s.data_shards + k)
        s.cursor.1 s.cursor.2 k []).1
    rw [hd2, hc2]
    rw [readLoop_take_d (s.data_shards + k) s2.shards s.shards s.data_shards
      s.cursor.1 s.cursor.2 k [] hs2]

/-- Witness for C9: two data shards, one parity shard, cursor inside the
first shard. -/
theorem spec_c9_witness :
    (ShardInput.read
      { shards := [some [1, 2], some [3], some [9, 9]],
        data_shards := 2, cursor := (0, 1) } 2).1 = [2, 3] := by
  have h := (spec_c9_read
    { shards := [some [1, 2], some [3], some [9, 9]],
      data_shards := 2, cursor := (0, 1) } 2 (by decide)).1
  exact h.trans (by decide)

/-! ### The Merkle branches iterator -/

/-- C7: the Merkle root `branches` builds is exactly the external trie's
deterministic root of the position-to-hash insertion sequence, so it is
fully determined by the order and content of the chunk sequence; two
invocations on chunk sequences with the same insertion sequence return
identical roots. -/
theorem spec_c7_deterministic
    (rootFn : List (List Nat × List Nat) → List Nat)
    (hash : List Nat → List Nat) (chunks chunks2 : List (List Nat)) :
    (branches rootFn hash chunks).root = rootFn (buildKV hash chunks) ∧
    (buildKV hash chunks2 = buildKV hash chunks →
      (branches rootFn hash chunks2).root = (branches rootFn hash chunks).root) := by
  constructor
  · rfl
  · intro h
    show rootFn (buildKV hash chunks2) = rootFn (buildKV hash chunks)
    rw [h]

/-- Witness for C7 on two concrete chunk sequences. -/
theorem spec_c7_witness :
    (branches trieRootFix (fun c => 0 :: c) [[1], [2]]).root
      = trieRootFix (buildKV (fun c => 0 :: c) [[1], [2]]) ∧
    (branches trieRootFix (fun c => 0 :: c) [[1], [2]]).root
      = (branches trieRootFix (fun c => 0 :: c) [[1], [2]]).root := by
  have h := spec_c7_deterministic trieRootFix (fun c => 0 :: c) [[1], [2]] [[1], [2]]
  exact ⟨h.1, h.2 rfl⟩

theorem encodeIndex_inj (a b : Nat) (ha : a < 4294967296) (hb : b < 4294967296)
    (h : encodeIndex a = encodeIndex b) : a = b := by
  unfold encodeIndex at h
  simp only [List.cons.injEq, and_true] at h
  omega

theorem trieLookup_isSome_iff (kv : List (List Nat × List Nat)) (key : List Nat) :
    (trieLookup kv key).isSome ↔ ∃ pr ∈ kv, pr.1 = key := by
  unfold trieLookup
  cases hfind : kv.reverse.find? (fun pr => pr.1 == key) with
  | some pr =>
    simp only [Option.isSome_some, true_iff]
    refine ⟨pr, List.mem_reverse.mp (List.mem_of_find?_eq_some hfind), ?_⟩
    have := List.find?_some hfind
    simpa using this
  | none =>
    simp only [Option.isSome_none, Bool.false_eq_true, false_iff]
    rintro ⟨pr, hpr, hkey⟩
    have := List.find?_eq_none.mp hfind pr (List.mem_reverse.mpr hpr)
    simp [hkey] at this

theorem buildKV_mem_key (hash : List Nat → List Nat) (chunks : List (List Nat))
    (pr : List Nat × List Nat) (hpr : pr ∈ buildKV hash chunks) :
    ∃ j, j < chunks.length ∧ pr.1 = encodeIndex j := by
  unfold buildKV at hpr
  obtain ⟨q, hq, hqe⟩ := List.mem_map.mp hpr
  obtain ⟨j, hj, hget⟩ := List.mem_iff_getElem.mp hq
  refine ⟨j, by simpa using hj, ?_⟩
  rw [← hqe, ← hget]
  rw [List.getElem_enum]

theorem buildKV_key_mem (hash : List Nat → List Nat) (chunks : List (List Nat))
    (j : Nat) (hj : j < chunks.length) :
    ∃ pr ∈ buildKV hash chunks, pr.1 = encodeIndex j := by
  have hj2 : j < (buildKV hash chunks).length := by
    unfold buildKV
    simpa using hj
  refine ⟨(buildKV hash chunks)[j], List.getElem_mem hj2, ?_⟩
  unfold buildKV
  rw [List.getElem_map, List.getElem_enum]

theorem branches_next_of_lt
    (pf : List (List Nat × List Nat) → List Nat → List (List Nat))
    (hash : List Nat → List Nat) (chunks : List (List Nat))
    (root : List Nat) (pos : Nat) (hpos : pos < chunks.length) :
    Branches.next pf
      { kv := buildKV hash chunks, root := root, chunks := chunks,
        current_pos := pos }
      = some ((pf (buildKV hash chunks) (encodeIndex pos), chunks.getD pos []),
          { kv := buildKV hash chunks, root := root, chunks := chunks,
            current_pos := pos + 1 }) := by
  unfold Branches.next
  have hlook : (trieLookup (buildKV hash chunks) (encodeIndex pos)).isSome := by
    rw [trieLookup_isSome_iff]
    exact buildKV_key_mem hash chunks pos hpos
  obtain ⟨v, hv⟩ := Option.isSome_iff_exists.mp hlook
  rw [hv]
  have hchunk : chunks[pos]? = some (chunks.getD pos []) := by
    rw [List.getElem?_eq_getElem hpos, List.getD_eq_getElem _ _ hpos]
  rw [hchunk]

theorem branches_next_of_ge
    (pf : List (List Nat × List Nat) → List Nat → List (List Nat))
    (hash : List Nat → List Nat) (chunks : List (List Nat))
    (root : List Nat) (pos : Nat) (hpos : chunks.length ≤ pos)
    (hlt : pos < 4294967296) :
    Branches.next pf
      { kv := buildKV hash chunks, root := root, chunks := chunks,
        current_pos := pos }
      = none := by
  unfold Branches.next
  have hlook : trieLookup (buildKV hash chunks) (encodeIndex pos) = none := by
    cases hl : trieLookup (buildKV hash chunks) (encodeIndex pos) with
    | none => rfl
    | some v =>
      exfalso
      have hsome : (trieLookup (buildKV hash chunks) (encodeIndex pos)).isSome := by
        rw [hl]
        rfl
      obtain ⟨pr, hpr, hkey⟩ := (trieLookup_isSome_iff _ _).mp hsome
      obtain ⟨j, hjlt, hjkey⟩ := buildKV_mem_key hash chunks pr hpr
      have : j = pos := encodeIndex_inj j pos (by omega) hlt (by rw [← hjkey, hkey])
      omega
  rw [hlook]

theorem stateAfter_spec (rootFn : List (List Nat × List Nat) → List Nat)
    (hash : List Nat → List Nat)
    (pf : List (List Nat × List Nat) → List Nat → List (List Nat))
    (chunks : List (List Nat)) (hm : chunks.length < 4294967296) :
    ∀ k, stateAfter pf (branches rootFn hash chunks) k
      = { kv := buildKV hash chunks, root := rootFn (buildKV hash chunks),
          chunks := chunks, current_pos := min k chunks.length } := by
  intro k
  induction k with
  | zero =>
    unfold stateAfter branches
    congr 1
    omega
  | succ k ih =>
    show nextState pf (stateAfter pf (branches rootFn hash chunks) k) = _
    rw [ih]
    unfold nextState
    by_cases hk : k < chunks.length
    · rw [min_eq_left (by omega)]
      rw [branches_next_of_lt pf hash chunks _ k hk]
      rw [min_eq_left (by omega)]
    · rw [min_eq_right (by omega)]
      rw [branches_next_of_ge pf hash chunks _ chunks.length (by omega) (by omega)]
      rw [min_eq_right (by omega)]

/-- C8: over a chunk sequence of length `m` (with positions fitting the
`u32` key space), the `Branches` iterator advances through positions
`0 .. m-1` in order, the `k`-th call yielding the recorded trie-proof nodes
for the canonical encoding of position `k` paired with the chunk at `k`,
and every call from the `m`-th on yields end-of-sequence. -/
theorem spec_c8_iterator (rootFn : List (List Nat × List Nat) → List Nat)
    (hash : List Nat → List Nat)
    (pf : List (List Nat × List Nat) → List Nat → List (List Nat))
    (chunks : List (List Nat)) (hm : chunks.length < 4294967296) :
    (∀ k, (stateAfter pf (branches rootFn hash chunks) k).current_pos
        = min k chunks.length) ∧
    (∀ k, k < chunks.length →
      ((stateAfter pf (branches rootFn hash chunks) k).next pf).map Prod.fst
        = some (pf (buildKV hash chunks) (encodeIndex k), chunks.getD k [])) ∧
    (∀ k, chunks.length ≤ k →
      (stateAfter pf (branches rootFn hash chunks) k).next pf = none) := by
  refine ⟨?_, ?_, ?_⟩
  · intro k
    rw [stateAfter_spec rootFn hash pf chunks hm k]
  · intro k hk
    rw [stateAfter_spec rootFn hash pf chunks hm k]
    rw [min_eq_left (by omega)]
    rw [branches_next_of_lt pf hash chunks _ k hk]
    rfl
  · intro k hk
    rw [stateAfter_spec rootFn hash pf chunks hm k]
    rw [min_eq_right (by omega)]
    exact branches_next_of_ge pf hash chunks _ chunks.length (by omega) (by omega)

/-- Witness for C8 on a two-chunk sequence: the second call yields the
recorded nodes for position 1, the third call yields end-of-sequence. -/
theorem spec_c8_witness :
    ((stateAfter trieProofFix (branches trieRootFix (fun c => c) [[1], [2]]) 1).next
        trieProofFix).map Prod.fst
      = some (trieProofFix (buildKV (fun c => c) [[1], [2]]) (encodeIndex 1), [2]) ∧
    (stateAfter trieProofFix (branches trieRootFix (fun c => c) [[1], [2]]) 2).next
        trieProofFix
      = none := by
  have h := spec_c8_iterator trieRootFix (fun c => c) trieProofFix [[1], [2]]
    (by decide)
  exact ⟨(h.2.1 1 (by decide)).trans (by decide), h.2.2 2 (by decide)⟩

end EC
